import Mathlib

/- Shallow embedding of the procedural-geometry core of the
valentine-garden repository (src/main.js), together with theorems settling
the frozen claims about it.  The 32-bit machine integers of the seeded RNG
are modelled as natural numbers reduced modulo 2 ^ 32; JavaScript floating
point numbers are modelled as real numbers, so the Number.isFinite test of
the source is identically true in this embedding; rational numbers are
used where the source only performs field operations on literals, keeping
those definitions computable. -/

namespace Valentine

/- Deterministic random source, src/main.js lines 105 to 116.  The JS code
mixes a 32-bit state with additions, Math.imul, xor, or and unsigned
shifts; all of these agree modulo 2 ^ 32 with the corresponding natural
number operations on the canonical representative of the state. -/

def u32Mod : ℕ := 4294967296

def seedInit (seed : ℕ) : ℕ := seed % u32Mod

def mulberryStep (a : ℕ) : ℕ := (a + 0x6D2B79F5) % u32Mod

def mulberryOut (a1 : ℕ) : ℕ :=
  let t1 := (Nat.xor a1 (a1 >>> 15)) * (a1 ||| 1) % u32Mod
  let t2 := Nat.xor ((t1 + (Nat.xor t1 (t1 >>> 7)) * (t1 ||| 61) % u32Mod) % u32Mod) t1
  Nat.xor t2 (t2 >>> 14)

def mulberryNext (a : ℕ) : ℕ × ℚ :=
  let a1 := mulberryStep a
  (a1, (mulberryOut a1 : ℚ) / 4294967296)

/- rand(min, max) of src/main.js line 115: min + rng() * (max - min). -/

def randQ (lo hi u : ℚ) : ℚ := lo + u * (hi - lo)

/- Interaction trigger, src/main.js lines 94 to 95 and 1310 to 1334.
The state is the pair of module-level variables lastTapTime and triggered;
lastTapTime starts at negative infinity, modelled by the none case, so the
first pointer-down always passes the cooldown test.  The signals field
counts how many times the body of onRoseTapped past the triggered test has
run, that is how many times the external signal (hide hint, show card,
play chime) has been emitted. -/

def tapCooldownMs : ℚ := 900

structure PointerEvent where
  time : ℚ
  hit : Bool
  deriving DecidableEq

structure TapState where
  lastTap : Option ℚ
  triggered : Bool
  signals : ℕ
  deriving DecidableEq

def initTapState : TapState := { lastTap := none, triggered := false, signals := 0 }

def cooldownOk (s : TapState) (now : ℚ) : Bool :=
  match s.lastTap with
  | none => true
  | some l => ! decide (now - l < tapCooldownMs)

def roseTapped (s : TapState) : TapState :=
  if s.triggered then s
  else { s with triggered := true, signals := s.signals + 1 }

def tapStep (s : TapState) (e : PointerEvent) : TapState :=
  if cooldownOk s e.time then
    let s1 := { s with lastTap := some e.time }
    if e.hit then roseTapped s1 else s1
  else s

def runTaps (evs : List PointerEvent) : TapState := evs.foldl tapStep initTapState

/- Invariant of the trigger state machine: the signal has been emitted
exactly once when triggered holds and never otherwise. -/

def tapInv (s : TapState) : Prop := s.signals = if s.triggered then 1 else 0

/- Small vector algebra used by the stem builder, mirroring the THREE
vector operations the source calls. -/

@[ext]
structure Vec3 where
  x : ℝ
  y : ℝ
  z : ℝ

noncomputable def Vec3.add (v w : Vec3) : Vec3 := ⟨v.x + w.x, v.y + w.y, v.z + w.z⟩

noncomputable def Vec3.sub (v w : Vec3) : Vec3 := ⟨v.x - w.x, v.y - w.y, v.z - w.z⟩

noncomputable def Vec3.smul (c : ℝ) (v : Vec3) : Vec3 := ⟨c * v.x, c * v.y, c * v.z⟩

noncomputable def Vec3.dot (v w : Vec3) : ℝ := v.x * w.x + v.y * w.y + v.z * w.z

noncomputable def Vec3.normSq (v : Vec3) : ℝ := Vec3.dot v v

noncomputable def Vec3.len (v : Vec3) : ℝ := Real.sqrt v.normSq

/- THREE.Vector3.setLength(l) is normalize() followed by multiplyScalar(l),
and normalize divides by the length or by 1 when the length is zero. -/

noncomputable def Vec3.setLength (v : Vec3) (l : ℝ) : Vec3 :=
  Vec3.smul (l / (if v.len = 0 then 1 else v.len)) v

/- JavaScript numeric helpers.  The JS remainder operator truncates the
quotient toward zero, so it keeps the sign of the dividend; the rose
surface generator therefore wraps it into a positive modulo, src/main.js
line 1215. -/

noncomputable def jsTrunc (x : ℝ) : ℤ := if 0 ≤ x then Int.floor x else Int.ceil x

noncomputable def jsRem (n m : ℝ) : ℝ := n - m * (jsTrunc (n / m) : ℝ)

noncomputable def posMod (n m : ℝ) : ℝ := jsRem (jsRem n m + m) m

/- THREE.MathUtils.clamp(value, min, max) = Math.max(min, Math.min(max, value)). -/

noncomputable def mathClamp (v lo hi : ℝ) : ℝ := max lo (min hi v)

/- GLSL clamp and smoothstep, used by the injected wind shader chunk. -/

noncomputable def glslClamp (x lo hi : ℝ) : ℝ := min (max x lo) hi

noncomputable def glslSmoothstep (e0 e1 x : ℝ) : ℝ :=
  let t := glslClamp ((x - e0) / (e1 - e0)) 0 1
  t * t * (3 - 2 * t)

/- Rose surface generator, src/main.js lines 1213 to 1278, decomposed into
one definition per intermediate quantity of the loop body.  The grid is
nu = 28 radial by nv = 320 angular samples. -/

def roseNu : ℕ := 28

def roseNv : ℕ := 320

noncomputable def roseEps : ℝ := 0.002

noncomputable def roseXpar (i : ℕ) : ℝ := (i : ℝ) / 27

noncomputable def roseTheta (j : ℕ) : ℝ :=
  -(2 * Real.pi) + ((j : ℝ) / 319) * (17 * Real.pi)

noncomputable def rosePhi (j : ℕ) : ℝ :=
  Real.pi / 2 * Real.exp (-(roseTheta j) / (8 * Real.pi))

noncomputable def roseTpar (j : ℕ) : ℝ :=
  posMod (3.6 * roseTheta j) (2 * Real.pi) / Real.pi

noncomputable def roseShapeX (j : ℕ) : ℝ :=
  mathClamp (1 - 0.5 * ((5 / 4) * (1 - (1 - roseTpar j) ^ 2) - 0.25) ^ 2) 0.05 1.35

noncomputable def roseYpar (i j : ℕ) : ℝ :=
  1.95653 * roseXpar i ^ 2 * (1.27689 * roseXpar i - 1) ^ 2 * Real.sin (rosePhi j)

noncomputable def roseR0 (i j : ℕ) : ℝ :=
  roseShapeX j * (roseXpar i * Real.sin (rosePhi j) + roseYpar i j * Real.cos (rosePhi j))

noncomputable def roseH0 (i j : ℕ) : ℝ :=
  roseShapeX j * (roseXpar i * Real.cos (rosePhi j) - roseYpar i j * Real.sin (rosePhi j))

/- Degeneracy guard, src/main.js lines 1253 to 1260.  The first branch of
the source tests Number.isFinite on r and h, which is identically true for
real numbers, so only the r < eps branch remains reachable in this
embedding; that branch replaces r by eps and leaves h unchanged. -/

noncomputable def roseGuard (r h : ℝ) : ℝ × ℝ :=
  if r < roseEps then (roseEps, h) else (r, h)

noncomputable def roseVertex (i j : ℕ) : ℝ × ℝ × ℝ :=
  let g := roseGuard (roseR0 i j) (roseH0 i j)
  let r := g.1 * 0.30
  let h := g.2 * 0.30
  (r * Real.sin (roseTheta j), h + 0.62, r * Real.cos (roseTheta j))

/- Triangulation of the rose surface grid, src/main.js lines 1281 to 1292:
two triangles per quad with shared-vertex indexing. -/

def roseQuadIndices (i j : ℕ) : List ℕ :=
  let a := i * roseNv + j
  let b := (i + 1) * roseNv + j
  let c := (i + 1) * roseNv + (j + 1)
  let d := i * roseNv + (j + 1)
  [a, b, d, b, c, d]

def roseIndexList : List ℕ :=
  (List.range (roseNu - 1)).flatMap fun i =>
    (List.range (roseNv - 1)).flatMap fun j => roseQuadIndices i j

/- Position-based vertex coloring of the merged flower archetype,
src/main.js lines 836 to 858.  Colors are the 8-bit sRGB components of the
hex literals, normalized to rationals. -/

def flowerColorStem : ℚ × ℚ × ℚ := (45 / 255, 184 / 255, 110 / 255)

def flowerColorLeaf : ℚ × ℚ × ℚ := (34 / 255, 153 / 255, 85 / 255)

def flowerColorPetal : ℚ × ℚ × ℚ := (1, 1, 1)

def flowerColorCenter : ℚ × ℚ × ℚ := (1, 215 / 255, 0)

noncomputable def flowerVertexColor (v : ℝ × ℝ × ℝ) : ℚ × ℚ × ℚ :=
  let r := Real.sqrt (v.1 ^ 2 + v.2.2 ^ 2)
  if v.2.1 < 1.2 then flowerColorStem
  else if v.2.1 < 1.35 ∧ r > 0.14 then flowerColorLeaf
  else if v.2.1 > 1.48 ∧ r < 0.16 then flowerColorCenter
  else flowerColorPetal

noncomputable def flowerVertexColors (verts : List (ℝ × ℝ × ℝ)) : List (ℚ × ℚ × ℚ) :=
  verts.map flowerVertexColor

/- Instanced field generator, src/main.js lines 733 to 760.  Each loop
iteration draws fifteen successive RNG values, in source order: radial
fraction, angle, x jitter, z jitter, vertical scale draw h, uniform scale
draw s, tilt about x, tilt about z, yaw, palette pick, the three HSL
offsets, sway amplitude and phase.  The final color is the pure function
offsetHSL of the picked palette color and the three offsets, so the
instance stores that data; positions come from fieldPlacement with the
configured clearRadius 12 and fieldRadius 120. -/

def flowerPalette : List (ℚ × ℚ × ℚ) :=
  [(255 / 255, 105 / 255, 180 / 255),
   (255 / 255, 20 / 255, 147 / 255),
   (255 / 255, 182 / 255, 193 / 255),
   (255 / 255, 107 / 255, 157 / 255),
   (255 / 255, 192 / 255, 203 / 255),
   (255 / 255, 143 / 255, 171 / 255),
   (255 / 255, 145 / 255, 164 / 255),
   (219 / 255, 112 / 255, 147 / 255),
   (255 / 255, 179 / 255, 217 / 255),
   (255 / 255, 77 / 255, 136 / 255)]

noncomputable def fieldPlacement (clearR fieldR u0 u1 u2 u3 : ℝ) : ℝ × ℝ :=
  let r := clearR + u0 * (fieldR - clearR)
  let a := u1 * (2 * Real.pi)
  (Real.cos a * r + (-2.5 + u2 * 5), Real.sin a * r + (-2.5 + u3 * 5))

noncomputable def fieldScaleDraws (uh us : ℝ) : ℝ × ℝ := (0.6 + uh * 1, 0.65 + us * 0.75)

noncomputable def distFromOrigin (p : ℝ × ℝ) : ℝ := Real.sqrt (p.1 ^ 2 + p.2 ^ 2)

structure FieldInstance where
  posX : ℝ
  posZ : ℝ
  tiltX : ℝ
  yaw : ℝ
  tiltZ : ℝ
  scaleX : ℝ
  scaleY : ℝ
  scaleZ : ℝ
  colorBase : ℚ × ℚ × ℚ
  hslOffH : ℚ
  hslOffS : ℚ
  hslOffL : ℚ
  sway : ℚ
  phase : ℝ

noncomputable def mkFieldInstance (s0 : ℕ) : ℕ × FieldInstance :=
  let (s1, uR) := mulberryNext s0
  let (s2, uA) := mulberryNext s1
  let (s3, uJx) := mulberryNext s2
  let (s4, uJz) := mulberryNext s3
  let (s5, uH) := mulberryNext s4
  let (s6, uS) := mulberryNext s5
  let (s7, uTx) := mulberryNext s6
  let (s8, uTz) := mulberryNext s7
  let (s9, uYaw) := mulberryNext s8
  let (s10, uPick) := mulberryNext s9
  let (s11, uDh) := mulberryNext s10
  let (s12, uDs) := mulberryNext s11
  let (s13, uDl) := mulberryNext s12
  let (s14, uSway) := mulberryNext s13
  let (s15, uPhase) := mulberryNext s14
  let pos := fieldPlacement 12 120 (uR : ℝ) (uA : ℝ) (uJx : ℝ) (uJz : ℝ)
  let hs := fieldScaleDraws ((uH : ℝ)) ((uS : ℝ))
  (s15,
    { posX := pos.1
      posZ := pos.2
      tiltX := -0.18 + (uTx : ℝ) * 0.36
      yaw := (uYaw : ℝ) * (2 * Real.pi)
      tiltZ := -0.18 + (uTz : ℝ) * 0.36
      scaleX := hs.2
      scaleY := hs.2 * hs.1
      scaleZ := hs.2
      colorBase := flowerPalette.getD (Nat.floor (uPick * 10)) (0, 0, 0)
      hslOffH := randQ (-0.02) 0.02 uDh
      hslOffS := randQ (-0.03) 0.03 uDs
      hslOffL := randQ (-0.04) 0.04 uDl
      sway := randQ 0.3 1.1 uSway
      phase := (uPhase : ℝ) * (2 * Real.pi) })

/- A run of the per-instance loop as a step relation: FieldRun s n xs holds
when starting from RNG state s the loop executes n iterations and produces
the instance list xs. -/

inductive FieldRun : ℕ → ℕ → List FieldInstance → Prop where
  | nil (s : ℕ) : FieldRun s 0 []
  | cons (s n s2 : ℕ) (inst : FieldInstance) (rest : List FieldInstance)
      (hstep : mkFieldInstance s = (s2, inst)) (hrest : FieldRun s2 n rest) :
      FieldRun s (n + 1) (inst :: rest)

noncomputable def fieldBuild : ℕ → ℕ → List FieldInstance
  | _, 0 => []
  | s, n + 1 => (mkFieldInstance s).2 :: fieldBuild (mkFieldInstance s).1 n

/- Tapered stem tube, src/main.js lines 1098 to 1163.  Each cross-section
vertex is rebuilt in the local normal/binormal plane of the curve sample
and its offset from the curve point is given length lerp(rBase, rTop, t),
with a fallback along the unit normal when the projected offset is
numerically degenerate. -/

noncomputable def lerpR (a b t : ℝ) : ℝ := (1 - t) * a + t * b

noncomputable def stemRBase : ℝ := 0.052

noncomputable def stemRTop : ℝ := 0.028

noncomputable def stemRadius (t : ℝ) : ℝ := lerpR stemRBase stemRTop t

noncomputable def stemRingVertex (p c n b : Vec3) (t : ℝ) : Vec3 :=
  let r := stemRadius t
  let tmp := Vec3.sub p c
  let offN := Vec3.dot tmp n
  let offB := Vec3.dot tmp b
  let rebuilt := Vec3.add (Vec3.smul offN n) (Vec3.smul offB b)
  let rebuilt2 := if rebuilt.normSq < 1e-8 then Vec3.smul r n else rebuilt.setLength r
  Vec3.add c rebuilt2

/- Wind vertex displacement, the GLSL chunk injected by applyWindShader,
src/main.js lines 863 to 898: sway terms masked by a clamped multiple of
the local height plus a top-only bend gated by smoothstep(1.2, 1.6, y). -/

noncomputable def windMask (y : ℝ) : ℝ := glslClamp (y * 0.70) 0 1

noncomputable def windBendX (uTime aPhase aSway y : ℝ) : ℝ :=
  let t := uTime * 1.1 + aPhase
  Real.sin t * 0.12 * aSway * windMask y
    + Real.sin (t * 1.3) * 0.08 * glslSmoothstep 1.2 1.6 y * aSway

noncomputable def windBendZ (uTime aPhase aSway y : ℝ) : ℝ :=
  let t := uTime * 1.1 + aPhase
  Real.cos (t * 0.85) * 0.09 * aSway * windMask y

/- Theorems. -/

theorem roseTapped_lastTap (s : TapState) : (roseTapped s).lastTap = s.lastTap := by
  unfold roseTapped; split <;> rfl

theorem tapStep_lastTap_of_ok (s : TapState) (e : PointerEvent)
    (h : cooldownOk s e.time = true) : (tapStep s e).lastTap = some e.time := by
  unfold tapStep
  rw [h]
  cases hh : e.hit <;> simp [hh, roseTapped_lastTap]

theorem cooldownOk_some (l now : ℚ) (s : TapState) (h : s.lastTap = some l) :
    cooldownOk s now = ! decide (now - l < tapCooldownMs) := by
  unfold cooldownOk
  rw [h]

theorem tapInv_init : tapInv initTapState := by simp [tapInv, initTapState]

theorem tapInv_step (s : TapState) (e : PointerEvent) (h : tapInv s) :
    tapInv (tapStep s e) := by
  simp only [tapInv, tapStep, roseTapped] at h ⊢
  cases hok : cooldownOk s e.time <;> cases hh : e.hit <;> cases ht : s.triggered <;>
    simp [hok, hh, ht] at h ⊢ <;> omega

theorem tapInv_run (evs : List PointerEvent) : ∀ s, tapInv s → tapInv (evs.foldl tapStep s) := by
  induction evs with
  | nil => intro s h; exact h
  | cons e rest ih => intro s h; exact ih _ (tapInv_step s e h)

/-- C5: the TRIGGERED state of the interaction trigger is terminal.  For
any sequence of pointer-down events the external signal is emitted at most
once, it has been emitted exactly once whenever the trigger fired, and
once the trigger is set every further event leaves the trigger set and
emits no further signal. -/
theorem trigger_one_shot (evs : List PointerEvent) :
    (runTaps evs).signals ≤ 1
    ∧ ((runTaps evs).triggered = true → (runTaps evs).signals = 1)
    ∧ ∀ (s : TapState) (e : PointerEvent), s.triggered = true →
        (tapStep s e).triggered = true ∧ (tapStep s e).signals = s.signals := by
  have hinv : tapInv (runTaps evs) := tapInv_run evs initTapState tapInv_init
  unfold tapInv at hinv
  refine ⟨?_, ?_, ?_⟩
  · cases h : (runTaps evs).triggered <;> rw [h] at hinv <;> simp at hinv <;> omega
  · intro h; rw [h] at hinv; simpa using hinv
  · intro s e ht
    simp only [tapStep, roseTapped]
    cases hok : cooldownOk s e.time <;> cases hh : e.hit <;> simp [hok, hh, ht]

theorem trigger_one_shot_witness :
    (runTaps [⟨0, true⟩, ⟨2000, true⟩]).signals ≤ 1
    ∧ (tapStep ⟨some 0, true, 1⟩ ⟨2000, true⟩).triggered = true
    ∧ (tapStep ⟨some 0, true, 1⟩ ⟨2000, true⟩).signals = 1 :=
  ⟨(trigger_one_shot [⟨0, true⟩, ⟨2000, true⟩]).1,
   ((trigger_one_shot []).2.2 ⟨some 0, true, 1⟩ ⟨2000, true⟩ rfl).1,
   ((trigger_one_shot []).2.2 ⟨some 0, true, 1⟩ ⟨2000, true⟩ rfl).2⟩

/-- C6: cooldown gating.  If a pointer-down at time t1 passes the cooldown
test and lands on the collider, then any pointer-down at time t2 with
t2 - t1 below the cooldown threshold is rejected by the cooldown test. -/
theorem cooldown_gating (s : TapState) (t1 t2 : ℚ)
    (hlt : t2 - t1 < tapCooldownMs) (hacc : cooldownOk s t1 = true) :
    cooldownOk (tapStep s ⟨t1, true⟩) t2 = false := by
  have hl : (tapStep s ⟨t1, true⟩).lastTap = some t1 :=
    tapStep_lastTap_of_ok s ⟨t1, true⟩ hacc
  rw [cooldownOk_some t1 t2 _ hl]
  simp [hlt]

theorem cooldown_gating_witness :
    cooldownOk (tapStep initTapState ⟨0, true⟩) 100 = false :=
  cooldown_gating initTapState 0 100 (by norm_num [tapCooldownMs]) rfl

/-- C10: the cooldown is consumed even by misses.  A pointer-down at time
t1 that passes the cooldown test but misses the collider still records t1
as the last tap time and leaves the trigger unchanged, and a later
pointer-down within the cooldown of t1 is rejected. -/
theorem cooldown_consumed_by_miss (s : TapState) (t1 t2 : ℚ)
    (hacc : cooldownOk s t1 = true) :
    (tapStep s ⟨t1, false⟩).lastTap = some t1
    ∧ (tapStep s ⟨t1, false⟩).triggered = s.triggered
    ∧ (t2 - t1 < tapCooldownMs → cooldownOk (tapStep s ⟨t1, false⟩) t2 = false) := by
  have hl : (tapStep s ⟨t1, false⟩).lastTap = some t1 :=
    tapStep_lastTap_of_ok s ⟨t1, false⟩ hacc
  refine ⟨hl, ?_, ?_⟩
  · simp [tapStep, hacc]
  · intro hlt
    rw [cooldownOk_some t1 t2 _ hl]
    simp [hlt]

theorem cooldown_consumed_by_miss_witness :
    (tapStep initTapState ⟨5, false⟩).lastTap = some 5
    ∧ cooldownOk (tapStep initTapState ⟨5, false⟩) 10 = false :=
  ⟨(cooldown_consumed_by_miss initTapState 5 10 rfl).1,
   (cooldown_consumed_by_miss initTapState 5 10 rfl).2.2 (by norm_num [tapCooldownMs])⟩

/-- C9: the wind displacement of the injected shader is masked by a height
mask clamped to the unit interval, and a vertex at local height y at or
below zero receives zero wind displacement in both horizontal axes. -/
theorem wind_height_mask (uTime aPhase aSway y : ℝ) :
    0 ≤ windMask y ∧ windMask y ≤ 1
    ∧ (y ≤ 0 → windBendX uTime aPhase aSway y = 0 ∧ windBendZ uTime aPhase aSway y = 0) := by
  refine ⟨le_min (le_max_right _ _) zero_le_one, min_le_right _ _, ?_⟩
  intro hy
  have hmask : windMask y = 0 := by
    unfold windMask glslClamp
    rw [max_eq_right (by nlinarith : y * 0.70 ≤ 0)]
    exact min_eq_left (by norm_num)
  have hss : glslSmoothstep 1.2 1.6 y = 0 := by
    unfold glslSmoothstep glslClamp
    have h1 : y - 1.2 ≤ 0 := by linarith
    have harg : (y - 1.2) / (1.6 - 1.2) ≤ 0 :=
      div_nonpos_iff.mpr (Or.inr ⟨h1, by norm_num⟩)
    rw [max_eq_right harg, min_eq_left (by norm_num : (0 : ℝ) ≤ 1)]
    norm_num
  constructor
  · simp only [windBendX]
    rw [hmask, hss]
    ring
  · simp only [windBendZ]
    rw [hmask]
    ring

theorem wind_height_mask_witness :
    ((0 : ℝ) ≤ 0) ∧ windBendX 1 2 3 0 = 0 ∧ windBendZ 1 2 3 0 = 0 :=
  ⟨le_refl 0, ((wind_height_mask 1 2 3 0).2.2 (le_refl 0)).1,
   ((wind_height_mask 1 2 3 0).2.2 (le_refl 0)).2⟩

theorem fieldRun_fieldBuild : ∀ (n s : ℕ), FieldRun s n (fieldBuild s n) := by
  intro n
  induction n with
  | zero => intro s; exact FieldRun.nil s
  | succ k ih =>
    intro s
    rw [fieldBuild]
    exact FieldRun.cons s k (mkFieldInstance s).1 (mkFieldInstance s).2
      (fieldBuild (mkFieldInstance s).1 k) rfl (ih _)

/-- C1: determinism of the instanced field generator.  The per-instance
loop is a step relation on the 32-bit RNG state; any two runs of the same
length from the same state, and in particular from the same seeded state,
produce identical instance lists, hence identical sequences of positions,
tilt and yaw angles, scales, palette colors with HSL offsets, sway
amplitudes and phase offsets. -/
theorem field_build_deterministic (s n : ℕ) (xs ys : List FieldInstance)
    (h1 : FieldRun s n xs) (h2 : FieldRun s n ys) : xs = ys := by
  induction h1 generalizing ys with
  | nil _ => cases h2; rfl
  | cons t m t2 inst rest hstep hrest ih =>
    cases h2 with
    | cons _ _ t2b instb restb hstepb hrestb =>
      rw [hstep] at hstepb
      injection hstepb with hs hi
      subst hs
      subst hi
      rw [ih restb hrestb]

theorem field_build_deterministic_witness :
    fieldBuild (seedInit 20260214) 2 = fieldBuild (seedInit 20260214) 2 :=
  field_build_deterministic (seedInit 20260214) 2 _ _
    (fieldRun_fieldBuild 2 (seedInit 20260214)) (fieldRun_fieldBuild 2 (seedInit 20260214))

theorem Vec3.normSq_nonneg (v : Vec3) : 0 ≤ v.normSq := by
  unfold Vec3.normSq Vec3.dot
  nlinarith [mul_self_nonneg v.x, mul_self_nonneg v.y, mul_self_nonneg v.z]

theorem Vec3.normSq_smul (k : ℝ) (v : Vec3) : (Vec3.smul k v).normSq = k ^ 2 * v.normSq := by
  unfold Vec3.normSq Vec3.dot Vec3.smul
  ring

theorem stem_branch_normSq (n w0 : Vec3) (r : ℝ) (hr : 0 < r) (hn : n.normSq = 1) :
    (if w0.normSq < 1e-8 then Vec3.smul r n else w0.setLength r).normSq = r ^ 2 := by
  by_cases h : w0.normSq < 1e-8
  · rw [if_pos h, Vec3.normSq_smul, hn]
    ring
  · rw [if_neg h]
    have h8 : (0 : ℝ) < 1e-8 := by norm_num
    have hpos : 0 < w0.normSq := lt_of_lt_of_le h8 (not_lt.mp h)
    have hlpos : 0 < w0.len := Real.sqrt_pos.mpr hpos
    unfold Vec3.setLength
    rw [if_neg hlpos.ne', Vec3.normSq_smul, div_pow]
    have hsq : w0.len ^ 2 = w0.normSq := Real.sq_sqrt (Vec3.normSq_nonneg w0)
    rw [hsq]
    field_simp

theorem stem_branch_span (n b : Vec3) (a1 a2 r : ℝ) :
    ∃ α β : ℝ, (if (Vec3.add (Vec3.smul a1 n) (Vec3.smul a2 b)).normSq < 1e-8
        then Vec3.smul r n
        else Vec3.setLength (Vec3.add (Vec3.smul a1 n) (Vec3.smul a2 b)) r)
      = Vec3.add (Vec3.smul α n) (Vec3.smul β b) := by
  have hsmul : ∀ k : ℝ, Vec3.smul k (Vec3.add (Vec3.smul a1 n) (Vec3.smul a2 b))
      = Vec3.add (Vec3.smul (k * a1) n) (Vec3.smul (k * a2) b) := by
    intro k
    ext <;> simp [Vec3.smul, Vec3.add] <;> ring
  by_cases h : (Vec3.add (Vec3.smul a1 n) (Vec3.smul a2 b)).normSq < 1e-8
  · refine ⟨r, 0, ?_⟩
    rw [if_pos h]
    ext <;> simp [Vec3.smul, Vec3.add]
  · refine ⟨r / (if (Vec3.add (Vec3.smul a1 n) (Vec3.smul a2 b)).len = 0 then 1
        else (Vec3.add (Vec3.smul a1 n) (Vec3.smul a2 b)).len) * a1,
      r / (if (Vec3.add (Vec3.smul a1 n) (Vec3.smul a2 b)).len = 0 then 1
        else (Vec3.add (Vec3.smul a1 n) (Vec3.smul a2 b)).len) * a2, ?_⟩
    rw [if_neg h]
    unfold Vec3.setLength
    exact hsmul _

/-- C7: tube-taper correctness.  Every rebuilt cross-section ring vertex of
the tapered stem lies at exact distance lerp(rBase, rTop, t) from the
curve sample point, inside the plane spanned by the local normal and
binormal, provided the Frenet normal is unit length; the radius function
returns the configured base radius 0.052 at t = 0 and tip radius 0.028 at
t = 1. -/
theorem stem_taper (p c n b : Vec3) (t : ℝ) (ht0 : 0 ≤ t) (ht1 : t ≤ 1)
    (hn : n.normSq = 1) :
    (Vec3.sub (stemRingVertex p c n b t) c).normSq = stemRadius t ^ 2
    ∧ Real.sqrt ((Vec3.sub (stemRingVertex p c n b t) c).normSq) = stemRadius t
    ∧ (∃ α β : ℝ, Vec3.sub (stemRingVertex p c n b t) c
        = Vec3.add (Vec3.smul α n) (Vec3.smul β b))
    ∧ stemRadius 0 = stemRBase ∧ stemRadius 1 = stemRTop := by
  have hrpos : 0 < stemRadius t := by
    unfold stemRadius lerpR stemRBase stemRTop
    nlinarith
  have hkey : ∀ v : Vec3, Vec3.sub (Vec3.add c v) c = v := by
    intro v
    ext <;> simp [Vec3.add, Vec3.sub]
  have hsub : Vec3.sub (stemRingVertex p c n b t) c
      = (if (Vec3.add (Vec3.smul (Vec3.dot (Vec3.sub p c) n) n)
               (Vec3.smul (Vec3.dot (Vec3.sub p c) b) b)).normSq < 1e-8
         then Vec3.smul (stemRadius t) n
         else Vec3.setLength (Vec3.add (Vec3.smul (Vec3.dot (Vec3.sub p c) n) n)
               (Vec3.smul (Vec3.dot (Vec3.sub p c) b) b)) (stemRadius t)) := by
    simp only [stemRingVertex]
    exact hkey _
  refine ⟨?_, ?_, ?_, ?_, ?_⟩
  · rw [hsub]
    exact stem_branch_normSq n _ (stemRadius t) hrpos hn
  · rw [hsub, stem_branch_normSq n _ (stemRadius t) hrpos hn]
    exact Real.sqrt_sq hrpos.le
  · rw [hsub]
    exact stem_branch_span n b _ _ _
  · norm_num [stemRadius, lerpR, stemRBase, stemRTop]
  · norm_num [stemRadius, lerpR, stemRBase, stemRTop]

theorem length_flatMap_const {α : Type} (f : ℕ → List α) (k n : ℕ)
    (hf : ∀ i, (f i).length = k) : ((List.range n).flatMap f).length = n * k := by
  induction n with
  | zero => simp
  | succ m ih =>
    rw [List.range_succ, List.flatMap_append, List.length_append, ih]
    simp only [List.flatMap_cons, List.flatMap_nil, List.append_nil, hf m]
    rw [Nat.succ_mul]

/-- C8: mesh well-formedness.  Every index emitted by the rose surface
triangulation is strictly below the vertex count nu * nv, the index list
has exactly 6 * (nu - 1) * (nv - 1) entries, and the per-vertex color list
of the merged flower archetype has exactly one entry per vertex. -/
theorem mesh_wellformed :
    (∀ x ∈ roseIndexList, x < roseNu * roseNv)
    ∧ roseIndexList.length = 6 * (roseNu - 1) * (roseNv - 1)
    ∧ ∀ verts : List (ℝ × ℝ × ℝ), (flowerVertexColors verts).length = verts.length := by
  refine ⟨?_, ?_, ?_⟩
  · intro x hx
    rw [roseIndexList, List.mem_flatMap] at hx
    obtain ⟨i, hi, hx⟩ := hx
    rw [List.mem_flatMap] at hx
    obtain ⟨j, hj, hx⟩ := hx
    rw [List.mem_range] at hi hj
    simp [roseQuadIndices, roseNv] at hx
    simp only [roseNu, roseNv] at hi hj ⊢
    rcases hx with h | h | h | h | h <;> omega
  · have hinner : ∀ i : ℕ,
        ((List.range (roseNv - 1)).flatMap fun j => roseQuadIndices i j).length
          = (roseNv - 1) * 6 :=
      fun i => length_flatMap_const _ 6 _ (fun _ => rfl)
    rw [roseIndexList, length_flatMap_const _ ((roseNv - 1) * 6) _ hinner]
    norm_num [roseNu, roseNv]
  · intro verts
    unfold flowerVertexColors
    exact List.length_map _ _

theorem mesh_wellformed_witness :
    (0 : ℕ) ∈ roseIndexList ∧ (0 : ℕ) < roseNu * roseNv
    ∧ (flowerVertexColors []).length = ([] : List (ℝ × ℝ × ℝ)).length := by
  have hmem : (0 : ℕ) ∈ roseIndexList := by
    rw [roseIndexList]
    refine List.mem_flatMap.mpr ⟨0, by simp [roseNu], ?_⟩
    exact List.mem_flatMap.mpr ⟨0, by simp [roseNv], by decide⟩
  exact ⟨hmem, mesh_wellformed.1 0 hmem, mesh_wellformed.2.2 []⟩

/-- C4 counterexample: the claimed bound distance in the closed interval
from clearRadius to fieldRadius + 2.5 fails for legal RNG draws, because
the jitter is applied per axis after the radial placement.  With
clearRadius 2 and fieldRadius 10 there are draws in the half-open unit
interval that put an instance at the origin, distance 0 below 2, and other
draws that put an instance at distance above 12.5. -/
theorem field_bounds_counterexample :
    distFromOrigin (fieldPlacement 2 10 0 0 (1 / 10) (1 / 2)) < 2
    ∧ 12.5 < distFromOrigin (fieldPlacement 2 10 (99 / 100) 0 (99 / 100) (99 / 100)) := by
  constructor
  · have h1 : fieldPlacement 2 10 0 0 (1 / 10) (1 / 2) = (0, 0) := by
      simp only [fieldPlacement]
      norm_num
    rw [h1]
    unfold distFromOrigin
    norm_num
  · have h2 : fieldPlacement 2 10 (99 / 100) 0 (99 / 100) (99 / 100)
        = (1237 / 100, 245 / 100) := by
      simp only [fieldPlacement]
      norm_num
    rw [h2]
    unfold distFromOrigin
    rw [Real.lt_sqrt (by norm_num)]
    norm_num

theorem unit_dot_sq_le (c s jx jz : ℝ) (hcs : c ^ 2 + s ^ 2 = 1)
    (hjx2 : jx ^ 2 ≤ 6.25) (hjz2 : jz ^ 2 ≤ 6.25) :
    (c * jx + s * jz) ^ 2 ≤ 12.5 := by
  have hident : (c * jx + s * jz) ^ 2 + (c * jz - s * jx) ^ 2
      = (c ^ 2 + s ^ 2) * (jx ^ 2 + jz ^ 2) := by ring
  rw [hcs, one_mul] at hident
  linarith [sq_nonneg (c * jz - s * jx)]

theorem le_of_sq_le_sq_of_nonneg (v w : ℝ) (hv : v ^ 2 ≤ w ^ 2) (hw : 0 ≤ w) : v ≤ w := by
  by_contra h
  push_neg at h
  nlinarith

theorem placement_core (cc ss r jx jz B : ℝ) (hcs : cc ^ 2 + ss ^ 2 = 1)
    (hr0 : 0 ≤ r) (hrB : r ≤ B) (hjx2 : jx ^ 2 ≤ 6.25) (hjz2 : jz ^ 2 ≤ 6.25) :
    Real.sqrt ((cc * r + jx) ^ 2 + (ss * r + jz) ^ 2) ≤ B + 2.5 * Real.sqrt 2 := by
  have hsqrt2 : Real.sqrt 2 ^ 2 = 2 := Real.sq_sqrt (by norm_num)
  have hsqrt2nn : (0 : ℝ) ≤ Real.sqrt 2 := Real.sqrt_nonneg 2
  have hB0 : 0 ≤ B := le_trans hr0 hrB
  have hw2 : (2.5 * Real.sqrt 2) ^ 2 = 12.5 := by rw [mul_pow, hsqrt2]; norm_num
  have hv2 : (cc * jx + ss * jz) ^ 2 ≤ 12.5 := unit_dot_sq_le cc ss jx jz hcs hjx2 hjz2
  have hdot : cc * jx + ss * jz ≤ 2.5 * Real.sqrt 2 :=
    le_of_sq_le_sq_of_nonneg _ _ (by rw [hw2]; exact hv2) (by positivity)
  have hexp : (cc * r + jx) ^ 2 + (ss * r + jz) ^ 2
      = r ^ 2 + 2 * (r * (cc * jx + ss * jz)) + (jx ^ 2 + jz ^ 2) := by
    linear_combination (r ^ 2) * hcs
  have h1 : r * (cc * jx + ss * jz) ≤ r * (2.5 * Real.sqrt 2) :=
    mul_le_mul_of_nonneg_left hdot hr0
  have h2 : r * (2.5 * Real.sqrt 2) ≤ B * (2.5 * Real.sqrt 2) :=
    mul_le_mul_of_nonneg_right hrB (by positivity)
  have h3 : r ^ 2 ≤ B ^ 2 := by nlinarith
  have hrhs : (B + 2.5 * Real.sqrt 2) ^ 2
      = B ^ 2 + 2 * (B * (2.5 * Real.sqrt 2)) + 12.5 := by
    linear_combination hw2
  have hS : (cc * r + jx) ^ 2 + (ss * r + jz) ^ 2 ≤ (B + 2.5 * Real.sqrt 2) ^ 2 := by
    rw [hexp, hrhs]
    linarith
  calc Real.sqrt ((cc * r + jx) ^ 2 + (ss * r + jz) ^ 2)
      ≤ Real.sqrt ((B + 2.5 * Real.sqrt 2) ^ 2) := Real.sqrt_le_sqrt hS
    _ = B + 2.5 * Real.sqrt 2 := Real.sqrt_sq (by positivity)

/-- C4 amended: for every legal draw of the placement and scale values the
instance distance from the origin is at most fieldRadius + 2.5 * sqrt 2,
the per-axis jitter bound 2.5 scaled by the diagonal, and the two random
scale draws lie in their configured intervals, h in [0.6, 1.6) and s in
[0.65, 1.4); no positive lower bound on the distance holds, as the
counterexample shows. -/
theorem field_bounds_amended (clearR fieldR u0 u1 u2 u3 uh us : ℝ)
    (hc : 0 ≤ clearR) (hcf : clearR ≤ fieldR)
    (h00 : 0 ≤ u0) (h01 : u0 < 1) (h20 : 0 ≤ u2) (h21 : u2 < 1)
    (h30 : 0 ≤ u3) (h31 : u3 < 1) (hh0 : 0 ≤ uh) (hh1 : uh < 1)
    (hs0 : 0 ≤ us) (hs1 : us < 1) :
    distFromOrigin (fieldPlacement clearR fieldR u0 u1 u2 u3)
        ≤ fieldR + 2.5 * Real.sqrt 2
    ∧ 0.6 ≤ (fieldScaleDraws uh us).1 ∧ (fieldScaleDraws uh us).1 < 1.6
    ∧ 0.65 ≤ (fieldScaleDraws uh us).2 ∧ (fieldScaleDraws uh us).2 < 1.4 := by
  refine ⟨?_, ?_, ?_, ?_, ?_⟩
  · simp only [fieldPlacement, distFromOrigin]
    exact placement_core (Real.cos (u1 * (2 * Real.pi))) (Real.sin (u1 * (2 * Real.pi)))
      (clearR + u0 * (fieldR - clearR)) (-2.5 + u2 * 5) (-2.5 + u3 * 5) fieldR
      (by rw [add_comm]; exact Real.sin_sq_add_cos_sq _)
      (by nlinarith) (by nlinarith) (by nlinarith) (by nlinarith)
  · show (0.6 : ℝ) ≤ 0.6 + uh * 1
    linarith
  · show (0.6 : ℝ) + uh * 1 < 1.6
    linarith
  · show (0.65 : ℝ) ≤ 0.65 + us * 0.75
    linarith
  · show (0.65 : ℝ) + us * 0.75 < 1.4
    linarith

theorem field_bounds_amended_witness :
    distFromOrigin (fieldPlacement 2 10 0 0 0 0) ≤ 10 + 2.5 * Real.sqrt 2
    ∧ 0.6 ≤ (fieldScaleDraws 0 0).1 ∧ (fieldScaleDraws (0 : ℝ) 0).2 < 1.4 :=
  ⟨(field_bounds_amended 2 10 0 0 0 0 0 0 (by norm_num) (by norm_num) (by norm_num)
      (by norm_num) (by norm_num) (by norm_num) (by norm_num) (by norm_num)
      (by norm_num) (by norm_num) (by norm_num) (by norm_num)).1,
   (field_bounds_amended 2 10 0 0 0 0 0 0 (by norm_num) (by norm_num) (by norm_num)
      (by norm_num) (by norm_num) (by norm_num) (by norm_num) (by norm_num)
      (by norm_num) (by norm_num) (by norm_num) (by norm_num)).2.1,
   (field_bounds_amended 2 10 0 0 0 0 0 0 (by norm_num) (by norm_num) (by norm_num)
      (by norm_num) (by norm_num) (by norm_num) (by norm_num) (by norm_num)
      (by norm_num) (by norm_num) (by norm_num) (by norm_num)).2.2.2.2⟩

theorem stem_taper_witness :
    ((0 : ℝ) ≤ 0) ∧ ((0 : ℝ) ≤ 1) ∧ Vec3.normSq ⟨1, 0, 0⟩ = 1
    ∧ (Vec3.sub (stemRingVertex ⟨2, 0, 0⟩ ⟨0, 0, 0⟩ ⟨1, 0, 0⟩ ⟨0, 0, 1⟩ 0) ⟨0, 0, 0⟩).normSq
        = stemRadius 0 ^ 2 :=
  ⟨le_refl 0, by norm_num, by norm_num [Vec3.normSq, Vec3.dot],
   (stem_taper ⟨2, 0, 0⟩ ⟨0, 0, 0⟩ ⟨1, 0, 0⟩ ⟨0, 0, 1⟩ 0 (le_refl 0) (by norm_num)
     (by norm_num [Vec3.normSq, Vec3.dot])).1⟩

theorem rose_theta_range (j : ℕ) (hj : j < roseNv) :
    -(2 * Real.pi) ≤ roseTheta j ∧ roseTheta j ≤ 15 * Real.pi := by
  unfold roseTheta
  have hpi : 0 < Real.pi := Real.pi_pos
  have hj' : (j : ℝ) ≤ 319 := by
    have : j ≤ 319 := Nat.lt_succ_iff.mp (by simpa [roseNv] using hj)
    exact_mod_cast this
  constructor
  · have h0 : 0 ≤ ((j : ℝ) / 319) * (17 * Real.pi) := by positivity
    linarith
  · have h1 : (j : ℝ) / 319 ≤ 1 := by
      rw [div_le_one (by norm_num)]
      exact hj'
    have h2 : ((j : ℝ) / 319) * (17 * Real.pi) ≤ 17 * Real.pi :=
      mul_le_of_le_one_left (by positivity) h1
    linarith

theorem rose_xpar_mem (i : ℕ) (hi : i < roseNu) : 0 ≤ roseXpar i ∧ roseXpar i ≤ 1 := by
  unfold roseXpar
  constructor
  · positivity
  · rw [div_le_one (by norm_num)]
    have : i ≤ 27 := Nat.lt_succ_iff.mp (by simpa [roseNu] using hi)
    exact_mod_cast this

theorem rose_shapeX_mem (j : ℕ) : 0.05 ≤ roseShapeX j ∧ roseShapeX j ≤ 1.35 := by
  unfold roseShapeX mathClamp
  exact ⟨le_max_left _ _, max_le (by norm_num) (min_le_left _ _)⟩

theorem rose_ypar_mem (i j : ℕ) (hi : i < roseNu) :
    -1.95653 ≤ roseYpar i j ∧ roseYpar i j ≤ 1.95653 := by
  obtain ⟨hx0, hx1⟩ := rose_xpar_mem i hi
  unfold roseYpar
  have hs0 : -1 ≤ Real.sin (rosePhi j) := Real.neg_one_le_sin _
  have hs1 : Real.sin (rosePhi j) ≤ 1 := Real.sin_le_one _
  have hsq : (1.27689 * roseXpar i - 1) ^ 2 ≤ 1 := by nlinarith
  have hx2 : roseXpar i ^ 2 ≤ 1 := by nlinarith
  have hbc : roseXpar i ^ 2 * (1.27689 * roseXpar i - 1) ^ 2 ≤ 1 := by
    nlinarith [sq_nonneg (roseXpar i), sq_nonneg (1.27689 * roseXpar i - 1)]
  have hK0 : 0 ≤ 1.95653 * roseXpar i ^ 2 * (1.27689 * roseXpar i - 1) ^ 2 := by positivity
  have hK1 : 1.95653 * roseXpar i ^ 2 * (1.27689 * roseXpar i - 1) ^ 2 ≤ 1.95653 := by
    nlinarith [hbc]
  constructor <;> nlinarith [hK0, hK1, hs0, hs1]

theorem rose_inner_bounds (i j : ℕ) (hi : i < roseNu) :
    (-2.95653 ≤ roseXpar i * Real.sin (rosePhi j) + roseYpar i j * Real.cos (rosePhi j)
      ∧ roseXpar i * Real.sin (rosePhi j) + roseYpar i j * Real.cos (rosePhi j) ≤ 2.95653)
    ∧ (-2.95653 ≤ roseXpar i * Real.cos (rosePhi j) - roseYpar i j * Real.sin (rosePhi j)
      ∧ roseXpar i * Real.cos (rosePhi j) - roseYpar i j * Real.sin (rosePhi j) ≤ 2.95653) := by
  obtain ⟨hx0, hx1⟩ := rose_xpar_mem i hi
  obtain ⟨hy0, hy1⟩ := rose_ypar_mem i j hi
  have hs0 : -1 ≤ Real.sin (rosePhi j) := Real.neg_one_le_sin _
  have hs1 : Real.sin (rosePhi j) ≤ 1 := Real.sin_le_one _
  have hc0 : -1 ≤ Real.cos (rosePhi j) := Real.neg_one_le_cos _
  have hc1 : Real.cos (rosePhi j) ≤ 1 := Real.cos_le_one _
  have hxs_lo : -1 ≤ roseXpar i * Real.sin (rosePhi j) := by nlinarith
  have hxs_hi : roseXpar i * Real.sin (rosePhi j) ≤ 1 := by nlinarith
  have hxc_lo : -1 ≤ roseXpar i * Real.cos (rosePhi j) := by nlinarith
  have hxc_hi : roseXpar i * Real.cos (rosePhi j) ≤ 1 := by nlinarith
  have hyc_lo : -1.95653 ≤ roseYpar i j * Real.cos (rosePhi j) := by nlinarith
  have hyc_hi : roseYpar i j * Real.cos (rosePhi j) ≤ 1.95653 := by nlinarith
  have hys_lo : -1.95653 ≤ roseYpar i j * Real.sin (rosePhi j) := by nlinarith
  have hys_hi : roseYpar i j * Real.sin (rosePhi j) ≤ 1.95653 := by nlinarith
  exact ⟨⟨by linarith, by linarith⟩, ⟨by linarith, by linarith⟩⟩

theorem rose_r0_bounds (i j : ℕ) (hi : i < roseNu) :
    -4 ≤ roseR0 i j ∧ roseR0 i j ≤ 4 := by
  obtain ⟨⟨hin_lo, hin_hi⟩, _⟩ := rose_inner_bounds i j hi
  obtain ⟨hX0, hX1⟩ := rose_shapeX_mem j
  unfold roseR0
  constructor <;> nlinarith

theorem rose_h0_bounds (i j : ℕ) (hi : i < roseNu) :
    -4 ≤ roseH0 i j ∧ roseH0 i j ≤ 4 := by
  obtain ⟨_, ⟨hin_lo, hin_hi⟩⟩ := rose_inner_bounds i j hi
  obtain ⟨hX0, hX1⟩ := rose_shapeX_mem j
  unfold roseH0
  constructor <;> nlinarith

theorem rose_guard_bounds (i j : ℕ) (hi : i < roseNu) :
    (0.002 ≤ (roseGuard (roseR0 i j) (roseH0 i j)).1
      ∧ (roseGuard (roseR0 i j) (roseH0 i j)).1 ≤ 4)
    ∧ (-4 ≤ (roseGuard (roseR0 i j) (roseH0 i j)).2
      ∧ (roseGuard (roseR0 i j) (roseH0 i j)).2 ≤ 4) := by
  obtain ⟨hr_lo, hr_hi⟩ := rose_r0_bounds i j hi
  obtain ⟨hh_lo, hh_hi⟩ := rose_h0_bounds i j hi
  unfold roseGuard roseEps
  split
  · exact ⟨⟨by norm_num, by norm_num⟩, ⟨hh_lo, hh_hi⟩⟩
  · rename_i hnot
    push_neg at hnot
    exact ⟨⟨hnot, hr_hi⟩, ⟨hh_lo, hh_hi⟩⟩

/-- C2: the rose surface generator never emits a non-finite coordinate.
For every grid sample, with theta covering the full range from -2 pi to
15 pi, each emitted component lies in an explicit bounded interval (the
x and z components in [-1.2, 1.2] and the height in [-0.58, 1.82]), so
every emitted coordinate is a finite real number. -/
theorem rose_vertex_bounded (i j : ℕ) (hi : i < roseNu) (hj : j < roseNv) :
    (-(2 * Real.pi) ≤ roseTheta j ∧ roseTheta j ≤ 15 * Real.pi)
    ∧ (-1.2 ≤ (roseVertex i j).1 ∧ (roseVertex i j).1 ≤ 1.2)
    ∧ (-0.58 ≤ (roseVertex i j).2.1 ∧ (roseVertex i j).2.1 ≤ 1.82)
    ∧ (-1.2 ≤ (roseVertex i j).2.2 ∧ (roseVertex i j).2.2 ≤ 1.2) := by
  obtain ⟨⟨hg1_lo, hg1_hi⟩, ⟨hg2_lo, hg2_hi⟩⟩ := rose_guard_bounds i j hi
  have hs0 : -1 ≤ Real.sin (roseTheta j) := Real.neg_one_le_sin _
  have hs1 : Real.sin (roseTheta j) ≤ 1 := Real.sin_le_one _
  have hc0 : -1 ≤ Real.cos (roseTheta j) := Real.neg_one_le_cos _
  have hc1 : Real.cos (roseTheta j) ≤ 1 := Real.cos_le_one _
  have hv : roseVertex i j
      = ((roseGuard (roseR0 i j) (roseH0 i j)).1 * 0.30 * Real.sin (roseTheta j),
         (roseGuard (roseR0 i j) (roseH0 i j)).2 * 0.30 + 0.62,
         (roseGuard (roseR0 i j) (roseH0 i j)).1 * 0.30 * Real.cos (roseTheta j)) := rfl
  refine ⟨rose_theta_range j hj, ?_, ?_, ?_⟩
  · rw [hv]
    constructor <;> nlinarith
  · rw [hv]
    constructor <;> nlinarith
  · rw [hv]
    constructor <;> nlinarith

theorem rose_vertex_bounded_witness :
    (0 : ℕ) < roseNu ∧ (0 : ℕ) < roseNv
    ∧ -1.2 ≤ (roseVertex 0 0).1 ∧ (roseVertex 0 0).1 ≤ 1.2 :=
  ⟨by norm_num [roseNu], by norm_num [roseNv],
   (rose_vertex_bounded 0 0 (by norm_num [roseNu]) (by norm_num [roseNv])).2.1.1,
   (rose_vertex_bounded 0 0 (by norm_num [roseNu]) (by norm_num [roseNv])).2.1.2⟩

theorem jsRem_bounds (a m : ℝ) (hm : 0 < m) : -m < jsRem a m ∧ jsRem a m < m := by
  unfold jsRem jsTrunc
  have hkey : ∀ t : ℝ, a - m * t = m * (a / m - t) := by
    intro t
    field_simp
  split
  · rename_i hq
    rw [hkey]
    have h1 : (Int.floor (a / m) : ℝ) ≤ a / m := Int.floor_le _
    have h2 : a / m < Int.floor (a / m) + 1 := Int.lt_floor_add_one _
    constructor <;> nlinarith
  · rename_i hq
    rw [hkey]
    have h1 : a / m ≤ (Int.ceil (a / m) : ℝ) := Int.le_ceil _
    have h2 : (Int.ceil (a / m) : ℝ) < a / m + 1 := Int.ceil_lt_add_one _
    constructor <;> nlinarith

theorem posMod_mem (a m : ℝ) (hm : 0 < m) : 0 ≤ posMod a m ∧ posMod a m < m := by
  obtain ⟨hlo, hhi⟩ := jsRem_bounds a m hm
  unfold posMod
  set v := jsRem a m + m with hv
  have hv0 : 0 < v := by rw [hv]; linarith
  unfold jsRem jsTrunc
  have hq0 : 0 ≤ v / m := le_of_lt (div_pos hv0 hm)
  rw [if_pos hq0]
  have hkey : v - m * ((Int.floor (v / m) : ℤ) : ℝ) = m * (v / m - Int.floor (v / m)) := by
    field_simp
  rw [hkey]
  have h1 : (Int.floor (v / m) : ℝ) ≤ v / m := Int.floor_le _
  have h2 : v / m < Int.floor (v / m) + 1 := Int.lt_floor_add_one _
  constructor <;> nlinarith

theorem rose_tpar_mem (j : ℕ) : 0 ≤ roseTpar j ∧ roseTpar j < 2 := by
  have hpi : 0 < Real.pi := Real.pi_pos
  have h2pi : 0 < 2 * Real.pi := by linarith
  obtain ⟨h0, h1⟩ := posMod_mem (3.6 * roseTheta j) (2 * Real.pi) h2pi
  unfold roseTpar
  constructor
  · positivity
  · rw [div_lt_iff hpi]
    linarith

theorem rose_shapeX_ge_half (j : ℕ) : 0.5 ≤ roseShapeX j := by
  obtain ⟨ht0, ht2⟩ := rose_tpar_mem j
  unfold roseShapeX mathClamp
  have hq1 : (1 - roseTpar j) ^ 2 ≤ 1 := by nlinarith
  have hq0 : 0 ≤ (1 - roseTpar j) ^ 2 := sq_nonneg _
  have hB1 : (5 / 4) * (1 - (1 - roseTpar j) ^ 2) - 0.25 ≤ 1 := by nlinarith
  have hB2 : -1 ≤ (5 / 4) * (1 - (1 - roseTpar j) ^ 2) - 0.25 := by nlinarith
  have hB : ((5 / 4) * (1 - (1 - roseTpar j) ^ 2) - 0.25) ^ 2 ≤ 1 := by nlinarith
  have hraw_lo : 0.5 ≤ 1 - 0.5 * ((5 / 4) * (1 - (1 - roseTpar j) ^ 2) - 0.25) ^ 2 := by
    nlinarith
  have hmin : 0.5 ≤ min 1.35 (1 - 0.5 * ((5 / 4) * (1 - (1 - roseTpar j) ^ 2) - 0.25) ^ 2) :=
    le_min (by norm_num) hraw_lo
  exact le_trans hmin (le_max_right _ _)

theorem exp_neg_fifteen_eighths : (0.152 : ℝ) ≤ Real.exp (-(15 / 8)) := by
  have he1 : Real.exp 1 < 2.7182818286 := Real.exp_one_lt_d9
  have he2 : Real.exp 2 < 7.3890561 := by
    have h2 : Real.exp 2 = Real.exp 1 ^ 2 := by
      rw [show (2 : ℝ) = ((2 : ℕ) : ℝ) * 1 by norm_num, Real.exp_nat_mul]
    have hsq : Real.exp 1 ^ 2 < 2.7182818286 ^ 2 :=
      pow_lt_pow_left he1 (Real.exp_pos 1).le (by norm_num)
    have hc : (2.7182818286 : ℝ) ^ 2 < 7.3890561 := by norm_num
    rw [h2]
    linarith [hsq, hc]
  have he18 : (9 / 8 : ℝ) ≤ Real.exp (1 / 8) := by
    have := Real.add_one_le_exp (1 / 8 : ℝ)
    linarith
  have hsub : Real.exp (-(15 / 8) : ℝ) = Real.exp (1 / 8) / Real.exp 2 := by
    rw [← Real.exp_sub]
    norm_num
  rw [hsub, le_div_iff (Real.exp_pos 2)]
  linarith

theorem exp_quarter_le : Real.exp (1 / 4 : ℝ) ≤ 4 / 3 := by
  by_contra h
  push_neg at h
  have h4 : Real.exp 1 = Real.exp (1 / 4) ^ 4 := by
    have hnm : Real.exp (((4 : ℕ) : ℝ) * (1 / 4 : ℝ)) = Real.exp (1 / 4) ^ 4 :=
      Real.exp_nat_mul _ 4
    have harg : (((4 : ℕ) : ℝ) * (1 / 4 : ℝ)) = 1 := by norm_num
    rw [harg] at hnm
    exact hnm
  have he1 : Real.exp 1 < 2.7182818286 := Real.exp_one_lt_d9
  have hlt : (4 / 3 : ℝ) ^ 4 < Real.exp (1 / 4) ^ 4 :=
    pow_lt_pow_left h (by norm_num) (by norm_num)
  rw [← h4] at hlt
  norm_num at hlt
  linarith

theorem rose_phi_mem (j : ℕ) (hj : j < roseNv) :
    0.238 ≤ rosePhi j ∧ rosePhi j ≤ 2 * Real.pi / 3 := by
  obtain ⟨hth_lo, hth_hi⟩ := rose_theta_range j hj
  have hpi3 : 3.141592 < Real.pi := Real.pi_gt_3141592
  have h8pi : 0 < 8 * Real.pi := by linarith
  unfold rosePhi
  have harg_lo : -(15 / 8 : ℝ) ≤ -(roseTheta j) / (8 * Real.pi) := by
    rw [le_div_iff h8pi]
    linarith
  have harg_hi : -(roseTheta j) / (8 * Real.pi) ≤ 1 / 4 := by
    rw [div_le_iff h8pi]
    linarith
  have hexp_lo : (0.152 : ℝ) ≤ Real.exp (-(roseTheta j) / (8 * Real.pi)) :=
    le_trans exp_neg_fifteen_eighths (Real.exp_le_exp.mpr harg_lo)
  have hexp_hi : Real.exp (-(roseTheta j) / (8 * Real.pi)) ≤ 4 / 3 :=
    le_trans (Real.exp_le_exp.mpr harg_hi) exp_quarter_le
  constructor
  · nlinarith [hexp_lo, hpi3]
  · nlinarith [hexp_hi, Real.exp_pos (-(roseTheta j) / (8 * Real.pi)), Real.pi_pos]

theorem rose_sin_phi_ge (j : ℕ) (hj : j < roseNv) : 0.234 ≤ Real.sin (rosePhi j) := by
  obtain ⟨hp_lo, hp_hi⟩ := rose_phi_mem j hj
  have hpi3 : 3.141592 < Real.pi := Real.pi_gt_3141592
  have hs238 : (0.234 : ℝ) ≤ Real.sin 0.238 := by
    have h := Real.sin_gt_sub_cube (by norm_num : (0 : ℝ) < 0.238)
      (by norm_num : (0.238 : ℝ) ≤ 1)
    nlinarith [h]
  rcases le_or_lt (rosePhi j) (Real.pi / 2) with hcase | hcase
  · have hmono : Real.sin 0.238 ≤ Real.sin (rosePhi j) :=
      Real.strictMonoOn_sin.monotoneOn
        (Set.mem_Icc.mpr ⟨by linarith, by linarith⟩)
        (Set.mem_Icc.mpr ⟨by linarith, hcase⟩) hp_lo
    linarith
  · have hrw : Real.sin (rosePhi j) = Real.sin (Real.pi - rosePhi j) :=
      (Real.sin_pi_sub _).symm
    rw [hrw]
    have hmono : Real.sin 0.238 ≤ Real.sin (Real.pi - rosePhi j) :=
      Real.strictMonoOn_sin.monotoneOn
        (Set.mem_Icc.mpr ⟨by linarith, by linarith⟩)
        (Set.mem_Icc.mpr ⟨by linarith, by linarith⟩) (by linarith)
    linarith

theorem rose_poly_bound (x : ℝ) (h0 : 0 ≤ x) (h1 : x ≤ 1) :
    1.95653 * x * (1.27689 * x - 1) ^ 2 ≤ 0.3 := by
  nlinarith [mul_nonneg (sq_nonneg (x - 0.261)) (sub_nonneg.mpr h1),
    sq_nonneg (x - 0.263), sq_nonneg (x - 0.261), h0, h1]

set_option maxHeartbeats 1000000 in
theorem rose_r0_core (x s c X : ℝ) (hx0 : 0 ≤ x) (hx27 : 1 / 27 ≤ x)
    (hsin : 0.234 ≤ s) (hcos_lo : -1 ≤ c) (hXhalf : 0.5 ≤ X)
    (hpoly : 1.95653 * x * (1.27689 * x - 1) ^ 2 ≤ 0.3) :
    0.003 ≤ X * (x * s + 1.95653 * x ^ 2 * (1.27689 * x - 1) ^ 2 * s * c) := by
  have hs0 : (0 : ℝ) ≤ s := by linarith
  have hynn : 0 ≤ 1.95653 * x ^ 2 * (1.27689 * x - 1) ^ 2 * s :=
    mul_nonneg (by positivity) hs0
  have hyc_ge : -(1.95653 * x ^ 2 * (1.27689 * x - 1) ^ 2 * s)
      ≤ 1.95653 * x ^ 2 * (1.27689 * x - 1) ^ 2 * s * c := by
    have hprod : 0 ≤ (1.95653 * x ^ 2 * (1.27689 * x - 1) ^ 2 * s) * (c + 1) :=
      mul_nonneg hynn (by linarith)
    linarith [hprod]
  have hxs : 0 ≤ x * s := mul_nonneg hx0 hs0
  have hybound : 1.95653 * x ^ 2 * (1.27689 * x - 1) ^ 2 * s ≤ 0.3 * (x * s) := by
    have hprod : (x * s) * (1.95653 * x * (1.27689 * x - 1) ^ 2) ≤ (x * s) * 0.3 :=
      mul_le_mul_of_nonneg_left hpoly hxs
    linarith [hprod]
  have hxs_ge : 0.234 * (1 / 27) ≤ x * s := by
    have hprod : 0 ≤ (x - 1 / 27) * (s - 0.234) :=
      mul_nonneg (by linarith) (by linarith)
    linarith [hprod]
  have hinner_pos : 0.00606
      ≤ x * s + 1.95653 * x ^ 2 * (1.27689 * x - 1) ^ 2 * s * c := by
    linarith [hyc_ge, hybound, hxs_ge]
  have hfinal : 0 ≤ (X - 0.5)
      * (x * s + 1.95653 * x ^ 2 * (1.27689 * x - 1) ^ 2 * s * c - 0.00606) :=
    mul_nonneg (by linarith) (by linarith)
  linarith [hfinal, hXhalf, hinner_pos]

theorem rose_r0_lower (i j : ℕ) (hi1 : 1 ≤ i) (hi : i < roseNu) (hj : j < roseNv) :
    0.003 ≤ roseR0 i j := by
  obtain ⟨hx0, hx1⟩ := rose_xpar_mem i hi
  have hx27 : 1 / 27 ≤ roseXpar i := by
    unfold roseXpar
    have : (1 : ℝ) ≤ (i : ℝ) := by exact_mod_cast hi1
    linarith
  have hsin := rose_sin_phi_ge j hj
  have hcos_lo : -1 ≤ Real.cos (rosePhi j) := Real.neg_one_le_cos _
  have hXhalf := rose_shapeX_ge_half j
  have hpoly := rose_poly_bound (roseXpar i) hx0 hx1
  unfold roseR0 roseYpar
  exact rose_r0_core (roseXpar i) (Real.sin (rosePhi j)) (Real.cos (rosePhi j))
    (roseShapeX j) hx0 hx27 hsin hcos_lo hXhalf hpoly

/-- C3: degeneracy guard of the rose surface evaluation.  At every grid
sample where the radial value r falls below epsilon = 0.002 the emitted
pair is exactly (epsilon, 0): the only samples that can trigger the guard
are those of the innermost radial row, where the height term is already
zero, so both the radial and the height coordinate take the substitute
values the specification prescribes.  The non-finite branch of the source
guard cannot fire over the reals. -/
theorem rose_degeneracy_guard (i j : ℕ) (hi : i < roseNu) (hj : j < roseNv)
    (hdeg : roseR0 i j < roseEps) :
    roseGuard (roseR0 i j) (roseH0 i j) = (roseEps, 0) := by
  have hguard : roseGuard (roseR0 i j) (roseH0 i j) = (roseEps, roseH0 i j) := by
    unfold roseGuard
    rw [if_pos hdeg]
  rcases Nat.eq_zero_or_pos i with hi0 | hipos
  · subst hi0
    have hx : roseXpar 0 = 0 := by norm_num [roseXpar]
    have hh : roseH0 0 j = 0 := by
      unfold roseH0 roseYpar
      rw [hx]
      ring
    rw [hguard, hh]
  · exfalso
    have hlow := rose_r0_lower i j hipos hi hj
    have h2 : roseR0 i j < 0.002 := by simpa [roseEps] using hdeg
    linarith

theorem rose_degeneracy_guard_witness :
    roseR0 0 0 < roseEps ∧ roseGuard (roseR0 0 0) (roseH0 0 0) = (roseEps, 0) := by
  have hx : roseXpar 0 = 0 := by norm_num [roseXpar]
  have hr : roseR0 0 0 = 0 := by
    unfold roseR0 roseYpar
    rw [hx]
    ring
  have hlt : roseR0 0 0 < roseEps := by
    rw [hr]
    norm_num [roseEps]
  exact ⟨hlt, rose_degeneracy_guard 0 0 (by norm_num [roseNu]) (by norm_num [roseNv]) hlt⟩

end Valentine
